import Mathlib

/-!
Verification of the semantic code-chunking engine of the Codeaxi server.

The development shallowly embeds the two chunk extractors of the repository:

* `src/languageParsers.js` (`getCodeChunks` and its inner helpers
  `getLanguageParser` and `traverseAndChunk`) working over tree-sitter
  syntax trees, and
* `src/services/enhancedAstParser.js` (`parseFile`, `extractImports`,
  `createChunk`) working over Babel ASTs,

together with the per-file loop of `ingestProject`
(`src/services/projectIngestionService.js`).

Syntax trees are inputs of the engine produced by external parsers
(tree-sitter resp. Babel); they are modelled as inductive rose trees
carrying exactly the attributes the JavaScript code reads (node type,
field tag, character span, row span, children).  Well-formedness
(`WFTree`) captures the structural guarantees of real parser output:
spans of children are contained in the span of the parent and are pairwise
disjoint in source order, and row numbers are the line numbers of the
corresponding character positions under a monotone index-to-line map.
-/

namespace Codeaxi

/-- A tree-sitter syntax node: node type, the field name under which the
node sits in its parent (`none` for ordinary children), character span
`[startIndex, endIndex)`, row span (`startPosition.row`/`endPosition.row`,
0-indexed), and the ordered list of all children (named and anonymous),
as iterated by `node.children` in the source. -/
inductive TSNode : Type where
  | mk (ty : String) (field : Option String)
       (startIndex endIndex startRow endRow : Nat)
       (children : List TSNode)

def TSNode.ty : TSNode → String
  | .mk t _ _ _ _ _ _ => t

def TSNode.field : TSNode → Option String
  | .mk _ f _ _ _ _ _ => f

def TSNode.startIndex : TSNode → Nat
  | .mk _ _ s _ _ _ _ => s

def TSNode.endIndex : TSNode → Nat
  | .mk _ _ _ e _ _ _ => e

def TSNode.startRow : TSNode → Nat
  | .mk _ _ _ _ r _ _ => r

def TSNode.endRow : TSNode → Nat
  | .mk _ _ _ _ _ r _ => r

def TSNode.children : TSNode → List TSNode
  | .mk _ _ _ _ _ _ cs => cs

/-- `node.childForFieldName(f)`: the first child carrying field tag `f`. -/
def TSNode.childForFieldName (n : TSNode) (f : String) : Option TSNode :=
  n.children.find? (fun c => c.field == some f)

/-! ### Path utilities (`path.basename`, `path.extname`, lower-casing) -/

/-- The suffix of `cs` after the last occurrence of `sep` (all of `cs`
when `sep` does not occur). -/
def afterLast (sep : Char) (cs : List Char) : List Char :=
  (cs.reverse.takeWhile (fun c => c != sep)).reverse

/-- POSIX `path.basename`: the component after the last `/`. -/
def basename (p : String) : String :=
  (afterLast '/' p.toList).asString

/-- ASCII lower-casing, as `String.prototype.toLowerCase` acts on the
ASCII extensions being compared against the language table. -/
def asciiLower (s : String) : String :=
  (s.toList.map Char.toLower).asString

/-- Node's `path.extname`: the suffix of the basename starting at its last
dot; empty when the basename has no dot or only a leading dot. -/
def extname (p : String) : String :=
  let cs := (basename p).toList
  match ((List.range cs.length).filter (fun i => cs.getD i ' ' == '.')).getLast? with
  | none => ""
  | some 0 => ""
  | some i => (cs.drop i).asString

/-- The `languageMap` table of `languageParsers.js`, restricted to the
language name (the parser object itself is opaque to the chunking logic). -/
def languageMapName (ext : String) : Option String :=
  if ext = ".js" then some "javascript"
  else if ext = ".jsx" then some "javascript"
  else if ext = ".ts" then some "typescript"
  else if ext = ".tsx" then some "typescript"
  else if ext = ".py" then some "python"
  else if ext = ".java" then some "java"
  else none

/-- `getLanguageParser`: language resolution by lower-cased extension.
Returns `none` for unsupported extensions (the source returns `null`).
The process-wide parser cache only memoizes parser construction and is
irrelevant to the returned language name, so it is not modelled. -/
def getLanguageParser (filePath : String) : Option String :=
  languageMapName (asciiLower (extname filePath))

/-! ### Per-language chunkable node kinds (`relevantNodeTypes`) -/

/-- The `relevantNodeTypes` policy table of `getCodeChunks`; a language
absent from the table yields the empty kind set (the source guards the
lookup with `?.has`). -/
def relevantNodeTypes (lang : String) : List String :=
  if lang = "javascript" then
    ["function_declaration", "arrow_function", "function", "class_declaration",
     "lexical_declaration", "variable_declaration", "export_statement",
     "import_statement"]
  else if lang = "typescript" then
    ["function_declaration", "arrow_function", "function", "class_declaration",
     "lexical_declaration", "variable_declaration", "export_statement",
     "import_statement", "interface_declaration", "type_alias_declaration",
     "enum_declaration"]
  else if lang = "python" then
    ["function_definition", "class_definition", "decorated_definition",
     "import_statement", "import_from_statement", "expression_statement"]
  else if lang = "java" then
    ["class_declaration", "interface_declaration", "enum_declaration",
     "method_declaration", "constructor_declaration", "import_declaration",
     "package_declaration", "field_declaration"]
  else []

/-! ### String helpers used by the extractor -/

/-- JavaScript `String.prototype.substring` for `0 ≤ a`: clamps both
indices to the string length and swaps them when `a > b`. -/
def jsSubstring (s : String) (a b : Nat) : String :=
  let lo := min a b
  let hi := max a b
  ((s.toList.drop lo).take (hi - lo)).asString

/-- One-shot regex replacement with the empty string: removes the leftmost
occurrence of any of the (alternation-ordered) patterns, scanning left to
right, as JavaScript `String.replace` with a non-global regex does. -/
def stripFirstMatch (pats : List (List Char)) : List Char → List Char
  | [] => []
  | c :: rest =>
    match pats.find? (fun p => p.isPrefixOf (c :: rest)) with
    | some p => List.drop p.length (c :: rest)
    | none => c :: stripFirstMatch pats rest

/-- The `s.replace(re, x)` step with `x` the empty string, for an alternation regex `re` without the `g` flag. -/
def jsReplaceFirst (pats : List String) (s : String) : String :=
  (stripFirstMatch (pats.map String.toList) s.toList).asString

/-- The `node.type.replace` step stripping `_declaration` or `_definition`. -/
def stripDeclDef (t : String) : String :=
  jsReplaceFirst ["_declaration", "_definition"] t

/-- The `node.type.replace` step stripping `_statement`. -/
def stripStatementSuffix (t : String) : String :=
  jsReplaceFirst ["_statement"] t

/-! ### Name and type extraction (`traverseAndChunk`, naming branches) -/

/-- The `identifierNode ? substring(...) : "anonymous"` step. -/
def nameFromOpt (fileContent : String) : Option TSNode → String
  | some i => jsSubstring fileContent i.startIndex i.endIndex
  | none => "anonymous"

/-- The naming/typing branch chain of `traverseAndChunk`, returning the
pair `(name, specificType)`; transcribed branch by branch from the
source (`let name = "anonymous"; let specificType = node.type; ...`). -/
def extractNameType (fileContent : String) (node : TSNode) : String × String :=
  if node.ty = "function_declaration" ∨ node.ty = "function_definition" ∨
      node.ty = "method_declaration" then
    (nameFromOpt fileContent
       ((node.childForFieldName "name").orElse fun _ => node.childForFieldName "id"),
     "function")
  else if node.ty = "class_declaration" ∨ node.ty = "class_definition" ∨
      node.ty = "interface_declaration" ∨ node.ty = "enum_declaration" then
    (nameFromOpt fileContent
       ((node.childForFieldName "name").orElse fun _ => node.childForFieldName "id"),
     stripDeclDef node.ty)
  else if node.ty = "lexical_declaration" ∨ node.ty = "variable_declaration" then
    match node.children.find? (fun c => c.ty == "variable_declarator") with
    | some declaratorNode =>
      (nameFromOpt fileContent (declaratorNode.childForFieldName "name"),
       match declaratorNode.childForFieldName "value" with
       | some valueNode =>
         if valueNode.ty = "arrow_function" ∨ valueNode.ty = "function" then
           "function_expression"
         else "variable"
       | none => "variable")
    | none => ("anonymous", node.ty)
  else if node.ty = "export_statement" ∨ node.ty = "import_statement" ∨
      node.ty = "import_from_statement" then
    (stripStatementSuffix node.ty, stripStatementSuffix node.ty)
  else if node.ty = "field_declaration" then
    (match node.childForFieldName "declarator" with
     | some d => nameFromOpt fileContent (d.childForFieldName "name")
     | none => "anonymous",
     "field")
  else if node.ty = "package_declaration" then
    (nameFromOpt fileContent (node.childForFieldName "name"), "package")
  else ("anonymous", node.ty)

/-- The identifier lookup performed by the naming branch that applies to
`node`, i.e. which child (if any) supplies the chunk name.  Mirrors the
branch chain of `extractNameType`; the import/export/package branches
never consult it for import/export (they name by kind). -/
def nameLookup (node : TSNode) : Option TSNode :=
  if node.ty = "function_declaration" ∨ node.ty = "function_definition" ∨
      node.ty = "method_declaration" then
    (node.childForFieldName "name").orElse fun _ => node.childForFieldName "id"
  else if node.ty = "class_declaration" ∨ node.ty = "class_definition" ∨
      node.ty = "interface_declaration" ∨ node.ty = "enum_declaration" then
    (node.childForFieldName "name").orElse fun _ => node.childForFieldName "id"
  else if node.ty = "lexical_declaration" ∨ node.ty = "variable_declaration" then
    match node.children.find? (fun c => c.ty == "variable_declarator") with
    | some declaratorNode => declaratorNode.childForFieldName "name"
    | none => none
  else if node.ty = "export_statement" ∨ node.ty = "import_statement" ∨
      node.ty = "import_from_statement" then
    none
  else if node.ty = "field_declaration" then
    match node.childForFieldName "declarator" with
    | some d => d.childForFieldName "name"
    | none => none
  else if node.ty = "package_declaration" then
    node.childForFieldName "name"
  else none

/-! ### Chunk records and the traversal -/

/-- The metadata bag pushed by `traverseAndChunk`. -/
structure ChunkMetadata where
  file_path : String
  language : String
  type : String
  name : String
  line_start : Nat
  line_end : Nat
  deriving Repr, DecidableEq

/-- A chunk record of `languageParsers.js`.  Note: its metadata carries no
`imports` binding (only the Babel-based extractor attaches one). -/
structure Chunk where
  id : String
  content : String
  metadata : ChunkMetadata
  deriving Repr, DecidableEq

/-- The chunk object pushed for a matched `node` when the per-file counter
is at `counter`; `line_start`/`line_end` add 1 to the 0-indexed rows. -/
def mkChunk (langName fileContent filePath : String) (counter : Nat)
    (node : TSNode) : Chunk :=
  let nt := extractNameType fileContent node
  { id := langName ++ "_" ++ nt.2 ++ "_" ++ nt.1 ++ "_" ++ basename filePath ++
        "_" ++ Nat.repr counter,
    content := jsSubstring fileContent node.startIndex node.endIndex,
    metadata :=
      { file_path := filePath,
        language := langName,
        type := nt.2,
        name := nt.1,
        line_start := node.startRow + 1,
        line_end := node.endRow + 1 } }

mutual
/-- The recursive walker of `getCodeChunks`.  The closure state (the
`chunks` array and `chunkIdCounter`) is passed explicitly; a matched node
is materialized and its children are not visited (the early `return`),
otherwise all children are visited in order. -/
def traverseAndChunk (langName fileContent filePath : String) :
    TSNode → List Chunk × Nat → List Chunk × Nat
  | .mk ty f s e sr er cs, st =>
    if (relevantNodeTypes langName).contains ty then
      (st.1 ++ [mkChunk langName fileContent filePath st.2 (.mk ty f s e sr er cs)],
       st.2 + 1)
    else
      traverseChildren langName fileContent filePath cs st

/-- `for (const child of node.children) traverseAndChunk(child)`. -/
def traverseChildren (langName fileContent filePath : String) :
    List TSNode → List Chunk × Nat → List Chunk × Nat
  | [], st => st
  | c :: cs, st =>
    traverseChildren langName fileContent filePath cs
      (traverseAndChunk langName fileContent filePath c st)
end

mutual
/-- The nodes materialized as chunks by the pruned pre-order traversal,
in visit order (specification form of `traverseAndChunk`). -/
def collect (langName : String) : TSNode → List TSNode
  | .mk ty f s e sr er cs =>
    if (relevantNodeTypes langName).contains ty then [.mk ty f s e sr er cs]
    else collectList langName cs

def collectList (langName : String) : List TSNode → List TSNode
  | [] => []
  | c :: cs => collect langName c ++ collectList langName cs
end

mutual
/-- All nodes of a tree (the node itself and all descendants), pre-order. -/
def subtrees : TSNode → List TSNode
  | .mk ty f s e sr er cs => .mk ty f s e sr er cs :: subtreesList cs

def subtreesList : List TSNode → List TSNode
  | [] => []
  | c :: cs => subtrees c ++ subtreesList cs
end

/-- Chunks built from the node list `ms` with consecutive counter values
starting at `k` (what the traversal pushes). -/
def chunksFrom (langName fileContent filePath : String) :
    Nat → List TSNode → List Chunk
  | _, [] => []
  | k, m :: ms =>
    mkChunk langName fileContent filePath k m ::
      chunksFrom langName fileContent filePath (k + 1) ms

/-! ### The final sort

`chunks.sort((a, b) => a.metadata.line_start - b.metadata.line_start)`:
`Array.prototype.sort` is stable (required since ES2019), so it is
modelled by stable insertion sort on the `line_start` key. -/

/-- Stable insertion: `c` goes after every element whose key is `≤` its own. -/
def insertByLineStart (c : Chunk) : List Chunk → List Chunk
  | [] => [c]
  | d :: ds =>
    if c.metadata.line_start < d.metadata.line_start then c :: d :: ds
    else d :: insertByLineStart c ds

/-- Stable sort by ascending `line_start`. -/
def sortChunks (l : List Chunk) : List Chunk :=
  l.foldl (fun acc c => insertByLineStart c acc) []

/-! ### `getCodeChunks` -/

/-- A source file as the engine sees it: its path, the text returned by
`fs.readFileSync`, and the tree produced for that text by the external
tree-sitter parser (`parser.parse(fileContent)`), which is total — parse
errors surface as `ERROR`/`MISSING` nodes inside the tree, never as an
exception. -/
structure FileModel where
  path : String
  content : String
  tree : TSNode

/-- `getCodeChunks`: language dispatch, pruned traversal from the root,
final sort.  Unsupported extensions return the empty list before any
parsing. -/
def getCodeChunks (file : FileModel) : List Chunk :=
  match getLanguageParser file.path with
  | none => []
  | some langName =>
    sortChunks
      (traverseAndChunk langName file.content file.path file.tree ([], 0)).1

/-- The per-file loop of `ingestProject`: each candidate file is processed
by `getCodeChunks` on its own; the pairing of path and chunk list is the
observable outcome per file (database insertion is an external effect). -/
def processBatch (files : List FileModel) : List (String × List Chunk) :=
  files.map (fun f => (f.path, getCodeChunks f))

/-! ### Well-formedness of parser output -/

/-- Local structural facts of one node of real tree-sitter output, with
`lineOf` mapping a character index to its 0-indexed line: a node's span is
ordered, its rows are the lines of its span endpoints, children lie inside
the span of the parent, and children occupy pairwise disjoint spans in source
order. -/
def localWF (lineOf : Nat → Nat) (m : TSNode) : Prop :=
  m.startIndex ≤ m.endIndex ∧
  m.startRow = lineOf m.startIndex ∧
  m.endRow = lineOf m.endIndex ∧
  (∀ c ∈ m.children, m.startIndex ≤ c.startIndex ∧ c.endIndex ≤ m.endIndex) ∧
  List.Pairwise (fun a b => a.endIndex ≤ b.startIndex) m.children

instance (lineOf : Nat → Nat) (m : TSNode) : Decidable (localWF lineOf m) := by
  unfold localWF; infer_instance

/-- A tree is well-formed when every node in it is locally well-formed. -/
def WFTree (lineOf : Nat → Nat) (t : TSNode) : Prop :=
  ∀ m ∈ subtrees t, localWF lineOf m

instance (lineOf : Nat → Nat) (t : TSNode) : Decidable (WFTree lineOf t) := by
  unfold WFTree; infer_instance

/-! ## The Babel-based JS/TS extractor (`enhancedAstParser.js`) -/

/-- One entry of `node.specifiers`, as mapped by `extractImports`:
`{type, local, imported|null}`. -/
structure ImportSpecifier where
  type : String
  localName : String
  imported : Option String
  deriving Repr, DecidableEq

/-- One entry of the file-level import list: `{source, specifiers}`. -/
structure ImportRecord where
  source : String
  specifiers : List ImportSpecifier
  deriving Repr, DecidableEq

/-- The attributes of a Babel AST node read by `parseFile`:
`type`, `start`/`end` (character offsets), `loc.start.line`/`loc.end.line`
(1-indexed), `id?.name`, `declarations[0].init?.type` (meaningful for
`VariableDeclaration` nodes), and, for `ImportDeclaration` nodes,
`source.value` and the mapped `specifiers`. -/
structure BData where
  ty : String
  startPos : Nat
  endPos : Nat
  startLine : Nat
  endLine : Nat
  idName : Option String
  firstDeclInitTy : Option String
  importSource : String
  importSpecifiers : List ImportSpecifier
  deriving Repr, DecidableEq

/-- A Babel AST node: its scalar attributes and its ordered children, as
visited by `@babel/traverse`. -/
inductive BNode : Type where
  | mk (data : BData) (children : List BNode)

def BNode.data : BNode → BData
  | .mk d _ => d

def BNode.children : BNode → List BNode
  | .mk _ cs => cs

mutual
/-- All nodes of the AST in pre-order: the order in which the `enter`
visitor of `traverse(ast, {enter})` fires.  The visitor never skips or
prunes, so every node of the tree is listed. -/
def bAllNodes : BNode → List BNode
  | .mk d cs => .mk d cs :: bAllNodesList cs

def bAllNodesList : List BNode → List BNode
  | [] => []
  | c :: cs => bAllNodes c ++ bAllNodesList cs
end

/-- The chunking condition of the `enter` visitor in `parseFile`:
`FunctionDeclaration`, `ClassDeclaration`, or a `VariableDeclaration`
whose first declarator is initialized with an arrow function. -/
def shouldChunk (n : BNode) : Bool :=
  n.data.ty == "FunctionDeclaration" || n.data.ty == "ClassDeclaration" ||
    (n.data.ty == "VariableDeclaration" &&
      n.data.firstDeclInitTy == some "ArrowFunctionExpression")

/-- JavaScript `String.prototype.slice` for non-negative indices. -/
def jsSlice (s : String) (a b : Nat) : String :=
  ((s.toList.drop a).take (b - a)).asString

/-- The metadata bag of an enhanced chunk.  The per-kind extras
(`metadata.function` / `metadata.class` with parameter types, async and
generator flags, JSDoc, superclass, members) are additional read-only
enrichments not consulted by any invariant under verification and are not
modelled. -/
structure BChunkMetadata where
  file_path : String
  type : String
  line_start : Nat
  line_end : Nat
  name : Option String
  imports : List ImportRecord
  deriving Repr, DecidableEq

/-- A chunk of the Babel-based extractor. -/
structure BChunk where
  id : String
  content : String
  metadata : BChunkMetadata
  deriving Repr, DecidableEq

/-- `createChunk(node, code, filePath)`: span-derived id, verbatim slice,
line span from `loc`, `name` from `node.id?.name` (`null` otherwise).
`createChunk` itself attaches no imports (`parseFile` adds them after). -/
def createChunk (node : BNode) (code filePath : String) : BChunk :=
  { id := filePath ++ ":" ++ Nat.repr node.data.startPos ++ "-" ++
      Nat.repr node.data.endPos,
    content := jsSlice code node.data.startPos node.data.endPos,
    metadata :=
      { file_path := filePath,
        type := node.data.ty,
        line_start := node.data.startLine,
        line_end := node.data.endLine,
        name := node.data.idName,
        imports := [] } }

/-- The chunk as it ends up in the output of `parseFile`: `createChunk` result
with `chunk.metadata.imports = imports` assigned. -/
def bChunkOf (code filePath : String) (imports : List ImportRecord)
    (node : BNode) : BChunk :=
  let ch := createChunk node code filePath
  { ch with metadata := { ch.metadata with imports := imports } }

/-- `extractImports(ast)`: one record per `ImportDeclaration` node
anywhere in the tree, in visit order. -/
def extractImports (ast : BNode) : List ImportRecord :=
  ((bAllNodes ast).filter (fun n => n.data.ty == "ImportDeclaration")).map
    (fun n => { source := n.data.importSource,
                specifiers := n.data.importSpecifiers })

/-- A file for the Babel extractor: the outcome of `fs.readFile` and the
outcome of `parser.parse(code, parseOptions)` for the text so read.  Both
throw inside the `try` block of `parseFile` on failure, modelled by `Except`;
`parseResult` is only consulted when the read succeeded. -/
structure BFile where
  path : String
  readResult : Except String String
  parseResult : Except String BNode

/-- `parseFile`: reads and parses the file, extracts the import list once,
then pushes one chunk per matching node of the unpruned pre-order
traversal, broadcasting the import list onto each; any error inside the
`try` block is caught and yields the empty chunk list (never an
exception to the caller). -/
def parseFile (f : BFile) : List BChunk :=
  match f.readResult with
  | .error _ => []
  | .ok code =>
    match f.parseResult with
    | .error _ => []
    | .ok ast =>
      ((bAllNodes ast).filter shouldChunk).map
        (bChunkOf code f.path (extractImports ast))

/-- Reading `metadata.imports` on a chunk produced by
`languageParsers.js`: that metadata object carries no `imports` binding
at all, so the read yields `undefined`, i.e. the empty import list. -/
def ChunkMetadata.importsOf (_ : ChunkMetadata) : List ImportRecord := []

/-! ### Decimal counter suffixes are injective

The chunk id ends in `"_" ++ Nat.repr counter`.  Decimal digit characters
never contain an underscore, so the fragment after the last underscore of
an id recovers the counter exactly; ids built from distinct counters are
therefore distinct strings, whatever the language/kind/name prefix is. -/

/-- Decode a decimal digit string (most significant first). -/
def decodeDigits (cs : List Char) : Nat :=
  cs.foldl (fun a c => a * 10 + (c.toNat - 48)) 0

/-- The fragment of a string after its last underscore. -/
def afterLastUnderscore (cs : List Char) : List Char :=
  (cs.reverse.takeWhile (fun c => c != '_')).reverse

/-- The per-file sequence number recovered from a chunk id. -/
def idSeq (s : String) : Nat := decodeDigits (afterLastUnderscore s.toList)

/-! ## Concrete inputs used as witnesses and counterexamples

`exTwoDecls` models the tree-sitter-javascript parse of the two-statement
file `a.js` below: two sibling `lexical_declaration` statements, the
second of which starts on the closing line of the first. -/

/-- Tree-sitter parse shape of
`const f = () => \x7b … \x7d; const y = 2;` (three source lines, second
statement on line 3). -/
def exTwoDeclsTree : TSNode :=
  .mk "program" none 0 35 0 2
    [.mk "lexical_declaration" none 0 22 0 2
      [.mk "const" none 0 5 0 0 [],
       .mk "variable_declarator" none 6 21 0 2
        [.mk "identifier" (some "name") 6 7 0 0 [],
         .mk "=" none 8 9 0 0 [],
         .mk "arrow_function" (some "value") 10 21 0 2 []]],
     .mk "lexical_declaration" none 23 35 2 2
      [.mk "const" none 23 28 2 2 [],
       .mk "variable_declarator" none 29 34 2 2
        [.mk "identifier" (some "name") 29 30 2 2 [],
         .mk "=" none 31 32 2 2 [],
         .mk "number" (some "value") 33 34 2 2 []]]]

def exTwoDecls : FileModel :=
  { path := "a.js",
    content := "const f = () => \x7b\nx\n\x7d; const y = 2;",
    tree := exTwoDeclsTree }

/-- Index-to-line map of `exTwoDecls.content` (newlines at offsets 17
and 19). -/
def exTwoDeclsLineOf (i : Nat) : Nat :=
  if i < 18 then 0 else if i < 20 then 1 else 2

/-- An unsupported file (`.md`). -/
def exMarkdown : FileModel :=
  { path := "README.md",
    content := "# readme",
    tree := .mk "document" none 0 8 0 0 [] }

/-- A hypothetical parse in which a chunkable `expression_statement`
spans only whitespace — the "malformed span" situation the spec's
defensive content filter is meant to catch. -/
def exWhitespacePy : FileModel :=
  { path := "e.py",
    content := " ",
    tree := .mk "module" none 0 1 0 0
      [.mk "expression_statement" none 0 1 0 0 []] }

/-- Tree-sitter-java parse shape of `package com.example;`. -/
def exJavaPackage : FileModel :=
  { path := "A.java",
    content := "package com.example;",
    tree := .mk "program" none 0 20 0 0
      [.mk "package_declaration" none 0 20 0 0
        [.mk "package" none 0 7 0 0 [],
         .mk "scoped_identifier" (some "name") 8 19 0 0 [],
         .mk ";" none 19 20 0 0 []]]}

/-- A chunkable declaration whose declarator has no `name` field child:
the anonymous-fallback shape. -/
def exAnonDecl : TSNode :=
  .mk "lexical_declaration" none 0 9 0 0
    [.mk "variable_declarator" none 0 9 0 0 []]

def bdat (ty : String) (s e sl el : Nat) (idn : Option String)
    (fdi : Option String) : BData :=
  { ty := ty, startPos := s, endPos := e, startLine := sl, endLine := el,
    idName := idn, firstDeclInitTy := fdi, importSource := "",
    importSpecifiers := [] }

/-- The nested `function inner() \x7b\x7d` declaration (line 2). -/
def exInnerFn : BNode :=
  .mk (bdat "FunctionDeclaration" 21 40 2 2 (some "inner") none)
    [.mk (bdat "Identifier" 30 35 2 2 none none) [],
     .mk (bdat "BlockStatement" 38 40 2 2 none none) []]

/-- Babel AST of `function outer() \x7b … \x7d` with `function inner()`
nested in its body (three source lines, `inner` on line 2). -/
def exNestedFnAst : BNode :=
  .mk (bdat "File" 0 42 1 3 none none)
    [.mk (bdat "Program" 0 42 1 3 none none)
      [.mk (bdat "FunctionDeclaration" 0 42 1 3 (some "outer") none)
        [.mk (bdat "Identifier" 9 14 1 1 none none) [],
         .mk (bdat "BlockStatement" 17 42 1 3 none none)
          [exInnerFn]]]]

def exNestedFn : BFile :=
  { path := "n.js",
    readResult := .ok "function outer() \x7b\n  function inner() \x7b\x7d\n\x7d",
    parseResult := .ok exNestedFnAst }

/-- A file whose Babel parse throws (syntax error). -/
def exParseError : BFile :=
  { path := "bad.js",
    readResult := .ok "const x = \"",
    parseResult := .error "SyntaxError: Unterminated string constant" }

/-- Babel AST of `import a from 'mod';` followed by
`const g = () => 1;`. -/
def exImportAst : BNode :=
  .mk (bdat "File" 0 39 1 2 none none)
    [.mk (bdat "Program" 0 39 1 2 none none)
      [.mk { ty := "ImportDeclaration", startPos := 0, endPos := 20,
             startLine := 1, endLine := 1, idName := none,
             firstDeclInitTy := none, importSource := "mod",
             importSpecifiers :=
               [{ type := "ImportDefaultSpecifier", localName := "a",
                  imported := none }] }
        [],
       .mk (bdat "VariableDeclaration" 21 39 2 2 none
             (some "ArrowFunctionExpression"))
        [.mk (bdat "VariableDeclarator" 27 38 2 2 none none)
          [.mk (bdat "Identifier" 27 28 2 2 none none) [],
           .mk (bdat "ArrowFunctionExpression" 31 38 2 2 none none) []]]]]

def exImportFile : BFile :=
  { path := "m.js",
    readResult := .ok "import a from \"mod\";\nconst g = () => 1;",
    parseResult := .ok exImportAst }

def exImportStmtNode : TSNode := .mk "import_statement" none 0 10 0 0 []

/-! ## Theorems -/

/-- Strong induction over the rose tree. -/
theorem TSNode.treeInd (P : TSNode → Prop)
    (h : ∀ ty f s e sr er cs, (∀ c ∈ cs, P c) → P (TSNode.mk ty f s e sr er cs)) :
    ∀ n, P n
  | .mk ty f s e sr er cs =>
    h ty f s e sr er cs (fun c hc => TSNode.treeInd P h c)
  termination_by n => sizeOf n
  decreasing_by
    simp only [TSNode.mk.sizeOf_spec]
    have := List.sizeOf_lt_of_mem hc
    omega

theorem BNode.astInd (P : BNode → Prop)
    (h : ∀ d cs, (∀ c ∈ cs, P c) → P (BNode.mk d cs)) :
    ∀ n, P n
  | .mk d cs => h d cs (fun c hc => BNode.astInd P h c)
  termination_by n => sizeOf n
  decreasing_by
    simp only [BNode.mk.sizeOf_spec]
    have := List.sizeOf_lt_of_mem hc
    omega

/-! ## Structural lemmas about the traversal -/

@[simp] theorem TSNode.ty_mk (ty f s e sr er cs) :
    (TSNode.mk ty f s e sr er cs).ty = ty := rfl

@[simp] theorem TSNode.field_mk (ty f s e sr er cs) :
    (TSNode.mk ty f s e sr er cs).field = f := rfl

@[simp] theorem TSNode.startIndex_mk (ty f s e sr er cs) :
    (TSNode.mk ty f s e sr er cs).startIndex = s := rfl

@[simp] theorem TSNode.endIndex_mk (ty f s e sr er cs) :
    (TSNode.mk ty f s e sr er cs).endIndex = e := rfl

@[simp] theorem TSNode.startRow_mk (ty f s e sr er cs) :
    (TSNode.mk ty f s e sr er cs).startRow = sr := rfl

@[simp] theorem TSNode.endRow_mk (ty f s e sr er cs) :
    (TSNode.mk ty f s e sr er cs).endRow = er := rfl

@[simp] theorem TSNode.children_mk (ty f s e sr er cs) :
    (TSNode.mk ty f s e sr er cs).children = cs := rfl

theorem chunksFrom_append (l fc fp : String) (a b : List TSNode) :
    ∀ k, chunksFrom l fc fp k (a ++ b) =
      chunksFrom l fc fp k a ++ chunksFrom l fc fp (k + a.length) b := by
  induction a with
  | nil => intro k; simp [chunksFrom]
  | cons m ms ih =>
    intro k
    have h1 : chunksFrom l fc fp k ((m :: ms) ++ b) =
        mkChunk l fc fp k m :: chunksFrom l fc fp (k + 1) (ms ++ b) := rfl
    have h2 : chunksFrom l fc fp k (m :: ms) =
        mkChunk l fc fp k m :: chunksFrom l fc fp (k + 1) ms := rfl
    rw [h1, ih (k + 1), h2, List.cons_append]
    have h3 : k + 1 + ms.length = k + (m :: ms).length := by simp; omega
    rw [h3]

theorem chunksFrom_length (l fc fp : String) :
    ∀ (ms : List TSNode) (k : Nat), (chunksFrom l fc fp k ms).length = ms.length := by
  intro ms
  induction ms with
  | nil => intro k; simp [chunksFrom]
  | cons m ms ih => intro k; simp [chunksFrom, ih]

theorem mem_chunksFrom {l fc fp : String} {ch : Chunk} :
    ∀ {ms : List TSNode} {k : Nat},
      ch ∈ chunksFrom l fc fp k ms ↔
        ∃ i, ∃ h : i < ms.length, ch = mkChunk l fc fp (k + i) (ms.get ⟨i, h⟩) := by
  intro ms
  induction ms with
  | nil => intro k; simp [chunksFrom]
  | cons m ms ih =>
    intro k
    simp only [chunksFrom, List.mem_cons, ih]
    constructor
    · rintro (rfl | ⟨i, h, rfl⟩)
      · exact ⟨0, by simp, by simp⟩
      · exact ⟨i + 1, by simpa using h, by simp [List.get]; congr 1; omega⟩
    · rintro ⟨i, h, rfl⟩
      match i with
      | 0 => left; simp [List.get]
      | j + 1 =>
        right
        refine ⟨j, by simp at h; omega, ?_⟩
        simp [List.get]
        congr 1
        omega

theorem chunksFrom_get (l fc fp : String) :
    ∀ (ms : List TSNode) (k i : Nat) (h : i < ms.length),
      (chunksFrom l fc fp k ms).get ⟨i, by rw [chunksFrom_length]; exact h⟩ =
        mkChunk l fc fp (k + i) (ms.get ⟨i, h⟩) := by
  intro ms
  induction ms with
  | nil => intro k i h; simp at h
  | cons m ms ih =>
    intro k i h
    match i with
    | 0 => simp [chunksFrom, List.get]
    | j + 1 =>
      have hj : j < ms.length := by simpa using h
      have := ih (k + 1) j hj
      simp only [chunksFrom, List.get] at this ⊢
      rw [this]
      congr 1
      omega

theorem traverseChildren_spec (l fc fp : String) (cs : List TSNode)
    (hcs : ∀ c ∈ cs, ∀ st, traverseAndChunk l fc fp c st =
      (st.1 ++ chunksFrom l fc fp st.2 (collect l c), st.2 + (collect l c).length)) :
    ∀ st, traverseChildren l fc fp cs st =
      (st.1 ++ chunksFrom l fc fp st.2 (collectList l cs),
       st.2 + (collectList l cs).length) := by
  induction cs with
  | nil => intro st; simp [traverseChildren, collectList, chunksFrom]
  | cons c cs ih =>
    intro st
    rw [traverseChildren, collectList, hcs c (by simp),
      ih (fun c hc => hcs c (List.mem_cons_of_mem _ hc))]
    rw [chunksFrom_append]
    simp [List.append_assoc, Nat.add_assoc]

/-- The traversal appends exactly one chunk per node of `collect`, with
consecutive counter values. -/
theorem traverseAndChunk_spec (l fc fp : String) :
    ∀ (n : TSNode) (st : List Chunk × Nat),
      traverseAndChunk l fc fp n st =
        (st.1 ++ chunksFrom l fc fp st.2 (collect l n),
         st.2 + (collect l n).length) := by
  intro n
  induction n using TSNode.treeInd with
  | h ty f s e sr er cs ih =>
    intro st
    rw [traverseAndChunk, collect]
    split
    · simp [chunksFrom]
    · exact traverseChildren_spec l fc fp cs (fun c hc => ih c hc) st

/-! ### Subtree membership and well-formedness transfer -/

theorem self_mem_subtrees (n : TSNode) : n ∈ subtrees n := by
  cases n with
  | mk ty f s e sr er cs => rw [subtrees]; exact List.mem_cons_self _ _

theorem mem_subtreesList_of {m c : TSNode} {cs : List TSNode}
    (hc : c ∈ cs) (hm : m ∈ subtrees c) : m ∈ subtreesList cs := by
  induction cs with
  | nil => cases hc
  | cons d ds ih =>
    rw [subtreesList, List.mem_append]
    rcases List.mem_cons.mp hc with rfl | h
    · exact Or.inl hm
    · exact Or.inr (ih h)

theorem WFTree.child {lineOf : Nat → Nat} {ty f s e sr er cs}
    (h : WFTree lineOf (.mk ty f s e sr er cs)) :
    ∀ c ∈ cs, WFTree lineOf c := by
  intro c hc m hm
  exact h m (by rw [subtrees]; exact List.mem_cons_of_mem _ (mem_subtreesList_of hc hm))

theorem WFTree.localWF {lineOf : Nat → Nat} {n : TSNode}
    (h : WFTree lineOf n) : localWF lineOf n :=
  h n (self_mem_subtrees n)

/-! ### The collected chunk nodes: membership, bounds, disjointness -/

theorem mem_collectList {l : String} {m : TSNode} :
    ∀ {cs : List TSNode}, m ∈ collectList l cs ↔ ∃ c ∈ cs, m ∈ collect l c := by
  intro cs
  induction cs with
  | nil => simp [collectList]
  | cons c cs ih =>
    rw [collectList]
    simp only [List.mem_append, ih, List.mem_cons]
    constructor
    · rintro (h | ⟨c', hc', hm⟩)
      · exact ⟨c, Or.inl rfl, h⟩
      · exact ⟨c', Or.inr hc', hm⟩
    · rintro ⟨c', rfl | hc', hm⟩
      · exact Or.inl hm
      · exact Or.inr ⟨c', hc', hm⟩

theorem collect_mem_subtrees {l : String} :
    ∀ {n : TSNode}, ∀ m ∈ collect l n, m ∈ subtrees n := by
  intro n
  induction n using TSNode.treeInd with
  | h ty f s e sr er cs ih =>
    intro m hm
    rw [collect] at hm
    split at hm
    · simp only [List.mem_singleton] at hm
      subst hm; exact self_mem_subtrees _
    · obtain ⟨c, hc, hmc⟩ := mem_collectList.mp hm
      rw [subtrees]
      exact List.mem_cons_of_mem _ (mem_subtreesList_of hc (ih c hc m hmc))

theorem collect_localWF {l : String} {lineOf : Nat → Nat} {n : TSNode}
    (hwf : WFTree lineOf n) : ∀ m ∈ collect l n, localWF lineOf m :=
  fun m hm => hwf m (collect_mem_subtrees m hm)

theorem collect_bounds {l : String} {lineOf : Nat → Nat} :
    ∀ {n : TSNode}, WFTree lineOf n →
      ∀ m ∈ collect l n, n.startIndex ≤ m.startIndex ∧ m.endIndex ≤ n.endIndex := by
  intro n
  induction n using TSNode.treeInd with
  | h ty f s e sr er cs ih =>
    intro hwf m hm
    rw [collect] at hm
    split at hm
    · simp only [List.mem_singleton] at hm
      subst hm; exact ⟨le_refl _, le_refl _⟩
    · obtain ⟨c, hc, hmc⟩ := mem_collectList.mp hm
      have hchild := (hwf.localWF).2.2.2.1 c (by simpa using hc)
      have := ih c hc (hwf.child c hc) m hmc
      simp only [TSNode.startIndex_mk, TSNode.endIndex_mk]
      exact ⟨le_trans hchild.1 this.1, le_trans this.2 hchild.2⟩

theorem collectList_pairwise {l : String} {lineOf : Nat → Nat} :
    ∀ {cs : List TSNode}, (∀ c ∈ cs, WFTree lineOf c) →
      (∀ c ∈ cs, List.Pairwise (fun a b => a.endIndex ≤ b.startIndex) (collect l c)) →
      List.Pairwise (fun a b => a.endIndex ≤ b.startIndex) cs →
      List.Pairwise (fun a b => a.endIndex ≤ b.startIndex) (collectList l cs) := by
  intro cs
  induction cs with
  | nil => intro _ _ _; simp [collectList]
  | cons c cs ih =>
    intro hwf hp hcs
    rw [collectList]
    rw [List.pairwise_append]
    refine ⟨hp c (by simp), ?_, ?_⟩
    · exact ih (fun d hd => hwf d (List.mem_cons_of_mem _ hd))
        (fun d hd => hp d (List.mem_cons_of_mem _ hd))
        (List.Pairwise.sublist (List.sublist_cons_self _ _) hcs)
    · intro a ha b hb
      obtain ⟨c', hc', hbc'⟩ := mem_collectList.mp hb
      have h1 : a.endIndex ≤ c.endIndex := (collect_bounds (hwf c (by simp)) a ha).2
      have h2 : c.endIndex ≤ c'.startIndex :=
        (List.pairwise_cons.mp hcs).1 c' hc'
      have h3 : c'.startIndex ≤ b.startIndex :=
        (collect_bounds (hwf c' (List.mem_cons_of_mem _ hc')) b hbc').1
      omega

/-- Distinct chunked nodes occupy disjoint character spans, in traversal
order: each ends at or before the next begins. -/
theorem collect_pairwise {l : String} {lineOf : Nat → Nat} :
    ∀ {n : TSNode}, WFTree lineOf n →
      List.Pairwise (fun a b => a.endIndex ≤ b.startIndex) (collect l n) := by
  intro n
  induction n using TSNode.treeInd with
  | h ty f s e sr er cs ih =>
    intro hwf
    rw [collect]
    split
    · simp
    · exact collectList_pairwise (fun c hc => hwf.child c hc)
        (fun c hc => ih c hc (hwf.child c hc))
        (hwf.localWF).2.2.2.2

/-- In traversal order, chunked nodes have non-decreasing start rows. -/
theorem collect_rows_pairwise {l : String} {lineOf : Nat → Nat} {n : TSNode}
    (hwf : WFTree lineOf n) (hmono : Monotone lineOf) :
    List.Pairwise (fun a b => a.startRow ≤ b.startRow) (collect l n) := by
  have hd := collect_pairwise (l := l) hwf
  refine hd.imp_of_mem ?_
  intro a b ha hb hab
  have hla := collect_localWF hwf a ha
  have hlb := collect_localWF hwf b hb
  rw [hla.2.1, hlb.2.1]
  exact hmono (le_trans hla.1 hab)

/-! ### Sorting an already-sorted push sequence is the identity -/

theorem chunksFrom_pairwise_lineStart {l fc fp : String} :
    ∀ {ms : List TSNode} {k : Nat},
      List.Pairwise (fun a b => a.startRow ≤ b.startRow) ms →
      List.Pairwise
        (fun a b => a.metadata.line_start ≤ b.metadata.line_start)
        (chunksFrom l fc fp k ms) := by
  intro ms
  induction ms with
  | nil => intro k _; simp [chunksFrom]
  | cons m ms ih =>
    intro k hp
    rw [chunksFrom, List.pairwise_cons]
    obtain ⟨hm, hms⟩ := List.pairwise_cons.mp hp
    refine ⟨?_, ih hms⟩
    intro ch hch
    obtain ⟨i, hlt, rfl⟩ := mem_chunksFrom.mp hch
    show (mkChunk l fc fp k m).metadata.line_start ≤ _
    simp only [mkChunk]
    exact Nat.succ_le_succ (hm _ (List.get_mem ms i hlt))

theorem insertByLineStart_append (c : Chunk) :
    ∀ (l : List Chunk),
      (∀ d ∈ l, d.metadata.line_start ≤ c.metadata.line_start) →
      insertByLineStart c l = l ++ [c] := by
  intro l
  induction l with
  | nil => intro _; rfl
  | cons d ds ih =>
    intro h
    rw [insertByLineStart,
      if_neg (Nat.not_lt.mpr (h d (List.mem_cons_self _ _))), ih
        (fun d' hd' => h d' (List.mem_cons_of_mem _ hd')), List.cons_append]

theorem foldl_insert_sorted :
    ∀ (l acc : List Chunk),
      List.Pairwise (fun a b => a.metadata.line_start ≤ b.metadata.line_start)
        (acc ++ l) →
      List.foldl (fun acc c => insertByLineStart c acc) acc l = acc ++ l := by
  intro l
  induction l with
  | nil => intro acc _; simp
  | cons c cs ih =>
    intro acc h
    rw [List.foldl_cons]
    have hacc : ∀ d ∈ acc, d.metadata.line_start ≤ c.metadata.line_start := by
      intro d hd
      exact ((List.pairwise_append.mp h).2.2 d hd c (List.mem_cons_self _ _))
    rw [insertByLineStart_append c acc hacc]
    have := ih (acc ++ [c]) (by simpa using h)
    simpa using this

/-- A stable sort of a sequence already sorted by the key leaves it
unchanged. -/
theorem sortChunks_of_pairwise {l : List Chunk}
    (h : List.Pairwise (fun a b => a.metadata.line_start ≤ b.metadata.line_start) l) :
    sortChunks l = l := by
  have := foldl_insert_sorted l [] (by simpa using h)
  simpa [sortChunks] using this

/-- Normal form of `getCodeChunks` on well-formed parser output: the
output is exactly the chunk per collected node, in traversal order, with
counter values 0, 1, 2, …; the final sort does not move anything because
pre-order visitation already yields non-decreasing start rows. -/
theorem getCodeChunks_eq {file : FileModel} {lang : String} {lineOf : Nat → Nat}
    (hlang : getLanguageParser file.path = some lang)
    (hwf : WFTree lineOf file.tree) (hmono : Monotone lineOf) :
    getCodeChunks file =
      chunksFrom lang file.content file.path 0 (collect lang file.tree) := by
  unfold getCodeChunks
  rw [hlang]
  dsimp only
  rw [traverseAndChunk_spec]
  simp only [List.nil_append]
  exact sortChunks_of_pairwise
    (chunksFrom_pairwise_lineStart (collect_rows_pairwise hwf hmono))

theorem digitChar_toNat {d : Nat} (h : d < 10) :
    (Nat.digitChar d).toNat = 48 + d := by
  interval_cases d <;> rfl

theorem digitChar_ne_underscore {d : Nat} (h : d < 10) :
    Nat.digitChar d ≠ '_' := by
  interval_cases d <;> decide

theorem toDigitsCore_underscore :
    ∀ (fuel n : Nat) (acc : List Char), (∀ c ∈ acc, c ≠ '_') →
      ∀ c ∈ Nat.toDigitsCore 10 fuel n acc, c ≠ '_' := by
  intro fuel
  induction fuel with
  | zero =>
    intro n acc hacc c hc
    rw [Nat.toDigitsCore] at hc
    exact hacc c hc
  | succ fuel ih =>
    intro n acc hacc c hc
    rw [Nat.toDigitsCore] at hc
    have hd : ∀ c' ∈ Nat.digitChar (n % 10) :: acc, c' ≠ '_' := by
      intro c' hc'
      rcases List.mem_cons.mp hc' with rfl | h
      · exact digitChar_ne_underscore (Nat.mod_lt _ (by norm_num))
      · exact hacc c' h
    split at hc
    · exact hd c hc
    · exact ih (n / 10) _ hd c hc

theorem repr_underscore_free (n : Nat) :
    ∀ c ∈ (Nat.repr n).toList, c ≠ '_' := by
  intro c hc
  have h1 : (Nat.repr n).toList = Nat.toDigits 10 n :=
    List.toList_asString _
  rw [h1, Nat.toDigits] at hc
  exact toDigitsCore_underscore (n + 1) n [] (by simp) c hc

theorem toDigitsCore_foldl :
    ∀ (fuel n : Nat), n < fuel → ∀ (acc : List Char) (init : Nat),
      ∃ p : Nat, n < p ∧
        (Nat.toDigitsCore 10 fuel n acc).foldl
            (fun a c => a * 10 + (c.toNat - 48)) init =
          acc.foldl (fun a c => a * 10 + (c.toNat - 48)) (init * p + n) := by
  intro fuel
  induction fuel with
  | zero => intro n h; omega
  | succ fuel ih =>
    intro n h acc init
    rw [Nat.toDigitsCore]
    split
    next h10 =>
      have hn : n < 10 := by omega
      refine ⟨10, hn, ?_⟩
      rw [List.foldl_cons]
      have hd := digitChar_toNat (show n % 10 < 10 from Nat.mod_lt _ (by norm_num))
      congr 1
      have hmod : n % 10 = n := Nat.mod_eq_of_lt hn
      omega
    next h10 =>
      have hlt : n / 10 < fuel := by omega
      obtain ⟨p, hp, heq⟩ := ih (n / 10) hlt (Nat.digitChar (n % 10) :: acc) init
      refine ⟨10 * p, by omega, ?_⟩
      rw [heq, List.foldl_cons]
      have hd := digitChar_toNat (show n % 10 < 10 from Nat.mod_lt _ (by norm_num))
      have hr : init * p * 10 + (n / 10 * 10 + n % 10) = init * (10 * p) + n := by
        have := Nat.div_add_mod n 10
        ring_nf
        omega
      calc List.foldl (fun a c => a * 10 + (c.toNat - 48))
              ((init * p + n / 10) * 10 + ((Nat.digitChar (n % 10)).toNat - 48)) acc
          = List.foldl (fun a c => a * 10 + (c.toNat - 48))
              (init * (10 * p) + n) acc := by
            congr 1
            rw [hd]
            have := Nat.div_add_mod n 10
            ring_nf
            omega

theorem decode_repr (n : Nat) : decodeDigits (Nat.repr n).toList = n := by
  have h1 : (Nat.repr n).toList = Nat.toDigits 10 n := List.toList_asString _
  rw [decodeDigits, h1, Nat.toDigits]
  obtain ⟨p, hp, heq⟩ := toDigitsCore_foldl (n + 1) n (by omega) [] 0
  rw [heq]
  simp

theorem afterLastUnderscore_append (a r : List Char)
    (hr : ∀ c ∈ r, c ≠ '_') : afterLastUnderscore (a ++ '_' :: r) = r := by
  unfold afterLastUnderscore
  rw [List.reverse_append, List.reverse_cons, List.append_assoc,
    List.takeWhile_append_of_pos (by
      intro c hc
      simpa using hr c (List.mem_reverse.mp hc))]
  simp

theorem idSeq_append (x : String) (k : Nat) :
    idSeq (x ++ "_" ++ Nat.repr k) = k := by
  unfold idSeq
  have h : (x ++ "_" ++ Nat.repr k).toList =
      x.toList ++ '_' :: (Nat.repr k).toList := by
    show (x ++ "_" ++ Nat.repr k).data = x.data ++ '_' :: (Nat.repr k).data
    rw [String.data_append, String.data_append, List.append_assoc]
    rfl
  rw [h, afterLastUnderscore_append _ _ (repr_underscore_free k), decode_repr]

theorem mkChunk_idSeq (l fc fp : String) (k : Nat) (m : TSNode) :
    idSeq (mkChunk l fc fp k m).id = k :=
  idSeq_append
    (l ++ "_" ++ (extractNameType fc m).2 ++ "_" ++ (extractNameType fc m).1 ++
      "_" ++ basename fp) k

/-! ### The Babel visitor reaches every node -/

theorem mem_bAllNodesList {m : BNode} :
    ∀ {cs : List BNode}, m ∈ bAllNodesList cs ↔ ∃ c ∈ cs, m ∈ bAllNodes c := by
  intro cs
  induction cs with
  | nil => simp [bAllNodesList]
  | cons c cs ih =>
    rw [bAllNodesList]
    simp only [List.mem_append, ih, List.mem_cons]
    constructor
    · rintro (h | ⟨c', hc', hm⟩)
      · exact ⟨c, Or.inl rfl, h⟩
      · exact ⟨c', Or.inr hc', hm⟩
    · rintro ⟨c', rfl | hc', hm⟩
      · exact Or.inl hm
      · exact Or.inr ⟨c', hc', hm⟩

theorem self_mem_bAllNodes (n : BNode) : n ∈ bAllNodes n := by
  cases n with
  | mk d cs => rw [bAllNodes]; exact List.mem_cons_self _ _

/-- Pre-order visitation is closed under descendants: every node of a
visited subtree is itself visited (the `enter` visitor never prunes). -/
theorem bAllNodes_trans :
    ∀ {t n m : BNode}, n ∈ bAllNodes t → m ∈ bAllNodes n → m ∈ bAllNodes t := by
  intro t
  induction t using BNode.astInd with
  | h d cs ih =>
    intro n m hn hm
    rw [bAllNodes] at hn ⊢
    rcases List.mem_cons.mp hn with rfl | hn'
    · rw [bAllNodes] at hm; exact hm
    · obtain ⟨c, hc, hnc⟩ := mem_bAllNodesList.mp hn'
      exact List.mem_cons_of_mem _ (mem_bAllNodesList.mpr ⟨c, hc, ih c hc hnc hm⟩)

theorem exTwoDeclsLineOf_mono : Monotone exTwoDeclsLineOf := by
  intro a b hab
  unfold exTwoDeclsLineOf
  split_ifs <;> omega

theorem chunksFrom_getElem? (l fc fp : String) :
    ∀ (ms : List TSNode) (k i : Nat),
      (chunksFrom l fc fp k ms)[i]? =
        (ms[i]?).map (fun m => mkChunk l fc fp (k + i) m) := by
  intro ms
  induction ms with
  | nil => intro k i; simp [chunksFrom]
  | cons m ms ih =>
    intro k i
    match i with
    | 0 => simp [chunksFrom]
    | j + 1 =>
      have harith : k + 1 + j = k + (j + 1) := by omega
      simp only [chunksFrom, List.getElem?_cons_succ, ih (k + 1) j, harith]

theorem chunksFrom_ids_pairwise (l fc fp : String) :
    ∀ (ms : List TSNode) (k : Nat),
      List.Pairwise (fun a b => a.id ≠ b.id) (chunksFrom l fc fp k ms) := by
  intro ms
  induction ms with
  | nil => intro k; simp [chunksFrom]
  | cons m ms ih =>
    intro k
    rw [chunksFrom, List.pairwise_cons]
    refine ⟨?_, ih (k + 1)⟩
    intro ch hch heq
    obtain ⟨i, hlt, rfl⟩ := mem_chunksFrom.mp hch
    have h2 := congrArg idSeq heq
    rw [mkChunk_idSeq, mkChunk_idSeq] at h2
    omega

/-! ## The claims -/

/-- C1 counterexample: the line-span non-overlap claim fails on a file
whose second top-level statement starts on the closing line of the first:
`getCodeChunks` returns a chunk spanning lines 1–3 and a second chunk
spanning lines 3–3 — a strict sub-range of the span of the first chunk. -/
theorem c1_line_span_nesting_cex :
    ∃ c ∈ getCodeChunks exTwoDecls, ∃ d ∈ getCodeChunks exTwoDecls,
      c.metadata.line_start ≤ d.metadata.line_start ∧
      d.metadata.line_end ≤ c.metadata.line_end ∧
      (c.metadata.line_start < d.metadata.line_start ∨
        d.metadata.line_end < c.metadata.line_end) := by
  decide

/-- C1 (amended): chunk pruning makes the output non-overlapping at the
character level — the nodes materialized as chunks occupy pairwise
disjoint `[startIndex, endIndex)` spans (in traversal order, each ends
before the next begins), because traversal never descends into a chunked
node; every output chunk is the verbatim text and line span of one such
node.  (Line spans of distinct chunks can still strictly nest when
sibling statements share a source line.) -/
theorem c1_char_span_disjoint {file : FileModel} {lang : String}
    {lineOf : Nat → Nat}
    (hlang : getLanguageParser file.path = some lang)
    (hwf : WFTree lineOf file.tree) (hmono : Monotone lineOf) :
    List.Pairwise (fun a b => a.endIndex ≤ b.startIndex)
      (collect lang file.tree) ∧
    ∀ ch ∈ getCodeChunks file, ∃ m ∈ collect lang file.tree,
      ch.content = jsSubstring file.content m.startIndex m.endIndex ∧
      ch.metadata.line_start = m.startRow + 1 ∧
      ch.metadata.line_end = m.endRow + 1 := by
  refine ⟨collect_pairwise hwf, ?_⟩
  intro ch hch
  rw [getCodeChunks_eq hlang hwf hmono] at hch
  obtain ⟨i, hlt, rfl⟩ := mem_chunksFrom.mp hch
  exact ⟨_, List.get_mem _ i hlt, rfl, rfl, rfl⟩

theorem c1_char_span_disjoint_witness :
    getLanguageParser exTwoDecls.path = some "javascript" ∧
    WFTree exTwoDeclsLineOf exTwoDecls.tree ∧
    Monotone exTwoDeclsLineOf ∧
    (List.Pairwise (fun a b => a.endIndex ≤ b.startIndex)
        (collect "javascript" exTwoDecls.tree) ∧
      ∀ ch ∈ getCodeChunks exTwoDecls,
        ∃ m ∈ collect "javascript" exTwoDecls.tree,
          ch.content = jsSubstring exTwoDecls.content m.startIndex m.endIndex ∧
          ch.metadata.line_start = m.startRow + 1 ∧
          ch.metadata.line_end = m.endRow + 1) :=
  ⟨by decide, by decide, exTwoDeclsLineOf_mono,
    c1_char_span_disjoint (by decide) (by decide) exTwoDeclsLineOf_mono⟩

/-- C2: the batch loop produces one result per input file, each file's
result depending only on that file; a caught read/parse failure in the
Babel extractor yields the empty list for that file, and an unsupported
language yields the empty list in `getCodeChunks`; all three paths are
total, so no single-file condition can abort the batch or escape as an
exception. -/
theorem c2_batch_isolation :
    (∀ files : List FileModel,
      (processBatch files).length = files.length ∧
      ∀ i : Nat, (processBatch files)[i]? =
        (files[i]?).map (fun f => (f.path, getCodeChunks f))) ∧
    (∀ f : BFile,
      ((∃ e, f.readResult = Except.error e) ∨
        (∃ e, f.parseResult = Except.error e)) →
      parseFile f = []) ∧
    (∀ file : FileModel, getLanguageParser file.path = none →
      getCodeChunks file = []) := by
  refine ⟨?_, ?_, ?_⟩
  · intro files
    exact ⟨by simp [processBatch], fun i => by simp [processBatch]⟩
  · rintro f (⟨e, he⟩ | ⟨e, he⟩)
    · unfold parseFile
      rw [he]
    · cases hr : f.readResult with
      | error e' => unfold parseFile; rw [hr]
      | ok code => unfold parseFile; rw [hr, he]
  · intro file h
    unfold getCodeChunks
    rw [h]

theorem c2_batch_isolation_witness :
    (processBatch [exTwoDecls, exMarkdown]).length = 2 ∧
    (∃ e, exParseError.parseResult = Except.error e) ∧
    parseFile exParseError = [] ∧
    getLanguageParser exMarkdown.path = none ∧
    getCodeChunks exMarkdown = [] :=
  ⟨(c2_batch_isolation.1 [exTwoDecls, exMarkdown]).1,
   ⟨"SyntaxError: Unterminated string constant", rfl⟩,
   c2_batch_isolation.2.1 exParseError (Or.inr ⟨_, rfl⟩),
   by decide,
   c2_batch_isolation.2.2 exMarkdown (by decide)⟩

/-- C3: the Babel extractor broadcasts the once-extracted file import
list onto the `imports` field of every chunk it emits (so all chunks of a
file carry an identical list); the chunks of the tree-sitter extractor —
through which all non-JS/TS languages flow — carry no `imports` binding
at all, so reading it yields the empty list. -/
theorem c3_imports_broadcast :
    (∀ (f : BFile) (code : String) (ast : BNode),
      f.readResult = Except.ok code → f.parseResult = Except.ok ast →
      (∀ ch ∈ parseFile f, ch.metadata.imports = extractImports ast) ∧
      ∀ ch₁ ∈ parseFile f, ∀ ch₂ ∈ parseFile f,
        ch₁.metadata.imports = ch₂.metadata.imports) ∧
    (∀ (file : FileModel), ∀ ch ∈ getCodeChunks file,
      ChunkMetadata.importsOf ch.metadata = []) := by
  constructor
  · intro f code ast hr hp
    have hmain : ∀ ch ∈ parseFile f, ch.metadata.imports = extractImports ast := by
      intro ch hch
      unfold parseFile at hch
      rw [hr, hp] at hch
      simp only [List.mem_map] at hch
      obtain ⟨n, hn, rfl⟩ := hch
      rfl
    exact ⟨hmain, fun ch₁ h₁ ch₂ h₂ => (hmain ch₁ h₁).trans (hmain ch₂ h₂).symm⟩
  · intro file ch hch
    rfl

theorem c3_imports_broadcast_witness :
    exImportFile.readResult =
      Except.ok "import a from \"mod\";\nconst g = () => 1;" ∧
    exImportFile.parseResult = Except.ok exImportAst ∧
    (∀ ch ∈ parseFile exImportFile,
      ch.metadata.imports = extractImports exImportAst) ∧
    (parseFile exImportFile).length = 1 ∧
    extractImports exImportAst ≠ [] :=
  ⟨rfl, rfl,
   (c3_imports_broadcast.1 exImportFile _ exImportAst rfl rfl).1,
   by decide, by decide⟩

/-- C4: in a file's output the chunk at position `i` carries id
`{language}_{kind}_{name}_{basename(filePath)}_{i}` — the per-file
counter starts at 0 and increases by one per chunk, and survives the
final sort in order — and the resulting ids are pairwise distinct even
when language, kind and name coincide, because the decimal counter after
the last underscore differs. -/
theorem c4_id_format_unique {file : FileModel} {lang : String}
    {lineOf : Nat → Nat}
    (hlang : getLanguageParser file.path = some lang)
    (hwf : WFTree lineOf file.tree) (hmono : Monotone lineOf) :
    (∀ (i : Nat) (ch : Chunk), (getCodeChunks file)[i]? = some ch →
      ch.id = lang ++ "_" ++ ch.metadata.type ++ "_" ++ ch.metadata.name ++
        "_" ++ basename file.path ++ "_" ++ Nat.repr i) ∧
    List.Pairwise (fun a b => a.id ≠ b.id) (getCodeChunks file) := by
  have heq := getCodeChunks_eq hlang hwf hmono
  constructor
  · intro i ch h
    rw [heq, chunksFrom_getElem?] at h
    cases hm : (collect lang file.tree)[i]? with
    | none => rw [hm] at h; simp at h
    | some m =>
      rw [hm] at h
      simp only [Option.map_some'] at h
      obtain rfl := Option.some.inj h.symm
      simp only [mkChunk, Nat.zero_add]
  · rw [heq]
    exact chunksFrom_ids_pairwise lang file.content file.path _ 0

theorem c4_id_format_unique_witness :
    getLanguageParser exTwoDecls.path = some "javascript" ∧
    WFTree exTwoDeclsLineOf exTwoDecls.tree ∧
    Monotone exTwoDeclsLineOf ∧
    ((∀ (i : Nat) (ch : Chunk), (getCodeChunks exTwoDecls)[i]? = some ch →
        ch.id = "javascript" ++ "_" ++ ch.metadata.type ++ "_" ++
          ch.metadata.name ++ "_" ++ basename exTwoDecls.path ++ "_" ++
          Nat.repr i) ∧
      List.Pairwise (fun a b => a.id ≠ b.id) (getCodeChunks exTwoDecls)) :=
  ⟨by decide, by decide, exTwoDeclsLineOf_mono,
    c4_id_format_unique (by decide) (by decide) exTwoDeclsLineOf_mono⟩

/-- C5: the Babel walker prunes nothing — every node of the tree is
visited, so each matching node, however deeply nested inside an
already-chunked node, contributes its own chunk; concretely, a function
declaration nested in another yields two chunks whose line spans strictly
nest. -/
theorem c5_no_pruning_nested_chunks :
    (∀ (f : BFile) (code : String) (ast : BNode) (n m : BNode),
      f.readResult = Except.ok code → f.parseResult = Except.ok ast →
      n ∈ bAllNodes ast → m ∈ bAllNodes n → shouldChunk m = true →
      bChunkOf code f.path (extractImports ast) m ∈ parseFile f) ∧
    (∃ c ∈ parseFile exNestedFn, ∃ d ∈ parseFile exNestedFn,
      c.metadata.line_start ≤ d.metadata.line_start ∧
      d.metadata.line_end ≤ c.metadata.line_end ∧
      (c.metadata.line_start < d.metadata.line_start ∨
        d.metadata.line_end < c.metadata.line_end)) := by
  constructor
  · intro f code ast n m hr hp hn hm hsc
    unfold parseFile
    rw [hr, hp]
    exact List.mem_map_of_mem _ (List.mem_filter.mpr ⟨bAllNodes_trans hn hm, hsc⟩)
  · decide

theorem c5_no_pruning_witness :
    exNestedFn.readResult =
      Except.ok "function outer() \x7b\n  function inner() \x7b\x7d\n\x7d" ∧
    exNestedFn.parseResult = Except.ok exNestedFnAst ∧
    shouldChunk exInnerFn = true ∧
    bChunkOf "function outer() \x7b\n  function inner() \x7b\x7d\n\x7d"
        "n.js" (extractImports exNestedFnAst) exInnerFn ∈
      parseFile exNestedFn :=
  ⟨rfl, rfl, by decide,
    c5_no_pruning_nested_chunks.1 exNestedFn _ exNestedFnAst exNestedFnAst
      exInnerFn rfl rfl (self_mem_bAllNodes _)
      (by simp [exNestedFnAst, exInnerFn, bAllNodes, bAllNodesList])
      (by decide)⟩

/-- C6 counterexample: `getCodeChunks` contains no content filter — fed a
parse in which a chunkable node spans only whitespace, the whitespace-only
chunk appears in the returned sequence instead of being dropped. -/
theorem c6_whitespace_chunk_kept_cex :
    (getCodeChunks exWhitespacePy).length = 1 ∧
    ∃ ch ∈ getCodeChunks exWhitespacePy,
      ch.content = " " ∧
      ch.content.toList.all (fun c => c == ' ') = true ∧
      ch.content ≠ "" := by
  decide

/-- C6 (amended): no dropping of empty or all-whitespace chunks occurs:
the returned sequence is exactly one chunk per node materialized by the
traversal, in order, whatever the chunk contents are — an empty or
whitespace-only span would pass through to the output unfiltered. -/
theorem c6_no_content_filter {file : FileModel} {lang : String}
    {lineOf : Nat → Nat}
    (hlang : getLanguageParser file.path = some lang)
    (hwf : WFTree lineOf file.tree) (hmono : Monotone lineOf) :
    getCodeChunks file =
      chunksFrom lang file.content file.path 0 (collect lang file.tree) ∧
    ∀ m ∈ collect lang file.tree, ∃ ch ∈ getCodeChunks file,
      ch.content = jsSubstring file.content m.startIndex m.endIndex := by
  have heq := getCodeChunks_eq hlang hwf hmono
  refine ⟨heq, ?_⟩
  intro m hm
  obtain ⟨i, hi⟩ := List.mem_iff_get.mp hm
  refine ⟨mkChunk lang file.content file.path (0 + i.1) m, ?_, rfl⟩
  rw [heq]
  exact mem_chunksFrom.mpr ⟨i.1, i.2, by rw [hi]⟩

theorem c6_no_content_filter_witness :
    getLanguageParser exWhitespacePy.path = some "python" ∧
    WFTree (fun _ : Nat => 0) exWhitespacePy.tree ∧
    (getCodeChunks exWhitespacePy =
        chunksFrom "python" exWhitespacePy.content exWhitespacePy.path 0
          (collect "python" exWhitespacePy.tree) ∧
      ∀ m ∈ collect "python" exWhitespacePy.tree,
        ∃ ch ∈ getCodeChunks exWhitespacePy,
          ch.content =
            jsSubstring exWhitespacePy.content m.startIndex m.endIndex) :=
  ⟨by decide, by decide,
    @c6_no_content_filter exWhitespacePy "python" (fun _ : Nat => 0)
      (by decide) (by decide) monotone_const⟩

/-- C7: a path whose (lower-cased) extension is outside the fixed
extension table makes `getCodeChunks` return the empty list; the
unsupported-language branch is an ordinary early return, not an error. -/
theorem c7_unsupported_extension_empty {file : FileModel}
    (h : asciiLower (extname file.path) ∉
      [".js", ".jsx", ".ts", ".tsx", ".py", ".java"]) :
    getCodeChunks file = [] := by
  have hl : getLanguageParser file.path = none := by
    unfold getLanguageParser languageMapName
    simp only [List.mem_cons, List.not_mem_nil, or_false] at h
    push_neg at h
    split_ifs <;> simp_all
  unfold getCodeChunks
  rw [hl]

theorem c7_unsupported_extension_empty_witness :
    asciiLower (extname exMarkdown.path) ∉
      [".js", ".jsx", ".ts", ".tsx", ".py", ".java"] ∧
    getCodeChunks exMarkdown = [] :=
  ⟨by decide, c7_unsupported_extension_empty (by decide)⟩

/-- C8: name extraction is total and falls back to `"anonymous"`: for any
chunkable node outside the import/export branch (which names by kind)
whose branch-specific identifier lookup finds nothing — a declarator with
no `name` child, a missing declarator, a node shape with no naming branch
— the extracted name is `"anonymous"`, and the traversal still pushes the
chunk for that node unconditionally. -/
theorem c8_anonymous_fallback :
    (∀ (fc : String) (node : TSNode),
      node.ty ∉ ["export_statement", "import_statement", "import_from_statement"] →
      nameLookup node = none →
      (extractNameType fc node).1 = "anonymous") ∧
    (∀ (lang fc fp : String) (n : TSNode) (st : List Chunk × Nat),
      (relevantNodeTypes lang).contains n.ty = true →
      traverseAndChunk lang fc fp n st =
        (st.1 ++ [mkChunk lang fc fp st.2 n], st.2 + 1)) := by
  constructor
  · intro fc node hstmt hlook
    unfold nameLookup at hlook
    unfold extractNameType
    split_ifs at hlook ⊢ with h1 h2 h3 h4 h5 h6
    · simp [hlook, nameFromOpt]
    · simp [hlook, nameFromOpt]
    · cases hfind : node.children.find? (fun c => c.ty == "variable_declarator") with
      | none => simp [hfind]
      | some d =>
        rw [hfind] at hlook
        simp only [hfind]
        simp at hlook
        simp [hlook, nameFromOpt]
    · exfalso
      simp only [List.mem_cons, List.not_mem_nil, or_false] at hstmt
      exact hstmt h4
    · cases hd : node.childForFieldName "declarator" with
      | none => simp [hd]
      | some d =>
        rw [hd] at hlook
        simp only [hd]
        simp at hlook
        simp [hlook, nameFromOpt]
    · simp [hlook, nameFromOpt]
    · rfl
  · intro lang fc fp n st hrel
    cases n with
    | mk ty f s e sr er cs =>
      have hrel' : (relevantNodeTypes lang).contains ty = true := by
        simpa using hrel
      rw [traverseAndChunk, if_pos hrel']

theorem c8_anonymous_fallback_witness :
    exAnonDecl.ty ∉
      ["export_statement", "import_statement", "import_from_statement"] ∧
    (nameLookup exAnonDecl).isNone = true ∧
    (extractNameType " " exAnonDecl).1 = "anonymous" ∧
    (relevantNodeTypes "javascript").contains exAnonDecl.ty = true ∧
    traverseAndChunk "javascript" " " "a.js" exAnonDecl ([], 0) =
      ([mkChunk "javascript" " " "a.js" 0 exAnonDecl], 1) :=
  ⟨by decide, rfl,
   c8_anonymous_fallback.1 " " exAnonDecl (by decide) rfl,
   by decide,
   c8_anonymous_fallback.2 "javascript" " " "a.js" exAnonDecl ([], 0) (by decide)⟩

/-- C9 counterexample: a `package_declaration` chunk is typed `package`
but is named by the extracted package path (`com.example`), not by the
kind string `package` — the name-defaults-to-kind rule does not hold for
package declarations. -/
theorem c9_package_name_cex :
    ∃ ch ∈ getCodeChunks exJavaPackage,
      ch.metadata.type = "package" ∧ ch.metadata.name = "com.example" ∧
      ch.metadata.name ≠ ch.metadata.type := by
  decide

/-- C9 (amended): import/export/import-from statement chunks get kind =
the node type with the trailing `_statement` stripped and name = that
kind string itself; package declarations get kind `package`, but their
name is the extracted `name`-field text, falling back to `"anonymous"`
(not to `"package"`) when absent. -/
theorem c9_statement_kinds (fc : String) (node : TSNode) :
    (node.ty = "import_statement" →
      extractNameType fc node = ("import", "import")) ∧
    (node.ty = "export_statement" →
      extractNameType fc node = ("export", "export")) ∧
    (node.ty = "import_from_statement" →
      extractNameType fc node = ("import_from", "import_from")) ∧
    (node.ty = "package_declaration" →
      extractNameType fc node =
        (nameFromOpt fc (node.childForFieldName "name"), "package")) := by
  refine ⟨?_, ?_, ?_, ?_⟩
  · intro h
    unfold extractNameType
    rw [h, if_neg (by decide), if_neg (by decide), if_neg (by decide),
      if_pos (by decide)]
    decide
  · intro h
    unfold extractNameType
    rw [h, if_neg (by decide), if_neg (by decide), if_neg (by decide),
      if_pos (by decide)]
    decide
  · intro h
    unfold extractNameType
    rw [h, if_neg (by decide), if_neg (by decide), if_neg (by decide),
      if_pos (by decide)]
    decide
  · intro h
    unfold extractNameType
    rw [h, if_neg (by decide), if_neg (by decide), if_neg (by decide),
      if_neg (by decide), if_neg (by decide), if_pos (by decide)]

theorem c9_statement_kinds_witness :
    exImportStmtNode.ty = "import_statement" ∧
    extractNameType "" exImportStmtNode = ("import", "import") :=
  ⟨rfl, (c9_statement_kinds "" exImportStmtNode).1 rfl⟩

/-- C10: the returned sequence is sorted by `lineStart` ascending, and it
equals the pre-order push sequence itself — the stable sort finds the
push order already non-decreasing (pruned pre-order yields non-decreasing
start positions), so ties keep their original traversal order. -/
theorem c10_sorted_by_line_start {file : FileModel} {lang : String}
    {lineOf : Nat → Nat}
    (hlang : getLanguageParser file.path = some lang)
    (hwf : WFTree lineOf file.tree) (hmono : Monotone lineOf) :
    List.Chain' (fun a b => a.metadata.line_start ≤ b.metadata.line_start)
      (getCodeChunks file) ∧
    getCodeChunks file =
      chunksFrom lang file.content file.path 0 (collect lang file.tree) := by
  have heq := getCodeChunks_eq hlang hwf hmono
  refine ⟨?_, heq⟩
  rw [heq]
  exact List.Pairwise.chain'
    (chunksFrom_pairwise_lineStart (collect_rows_pairwise hwf hmono))

theorem c10_sorted_by_line_start_witness :
    getLanguageParser exTwoDecls.path = some "javascript" ∧
    WFTree exTwoDeclsLineOf exTwoDecls.tree ∧
    Monotone exTwoDeclsLineOf ∧
    (List.Chain' (fun a b => a.metadata.line_start ≤ b.metadata.line_start)
        (getCodeChunks exTwoDecls) ∧
      getCodeChunks exTwoDecls =
        chunksFrom "javascript" exTwoDecls.content exTwoDecls.path 0
          (collect "javascript" exTwoDecls.tree)) :=
  ⟨by decide, by decide, exTwoDeclsLineOf_mono,
    c10_sorted_by_line_start (by decide) (by decide) exTwoDeclsLineOf_mono⟩

end Codeaxi

